import Mathlib

set_option maxHeartbeats 1000000
set_option maxRecDepth 10000

/-!
Shallow embedding of `notice_watcher.py` (university notice-board watcher).

The pure core of the program — per-board new-post classification, seen-state
merging and bounding, first-run backlog suppression, summary truncation and
the run orchestration of `main` — is translated into executable Lean
definitions.  External effects (HTTP fetching and HTML parsing, the JSON
file system, SMTP) are modelled as oracle fields of `RunEnv`; in particular
`list(set(prior))` from line 299 of the source is modelled by the oracle
`setEnum`, whose admissible values are the enumerations of the set of
previously seen identities (Python set iteration order is unspecified).
Python's `str` whitespace stripping is modelled with `Char.isWhitespace`.
-/

/-- An article record as built by `extract_articles` (a Python dict with
keys `id`, `title`, `date`, `url`, and later possibly `summary`). -/
structure Article where
  id : String
  title : String
  date : Option String
  url : String
  summary : Option String
deriving DecidableEq, Repr

/-- Persisted state: Python dict from board name to list of seen ids,
in insertion order. -/
abbrev StateMap := List (String × List String)

/-- Transient `new_by_board` mapping of `main`. -/
abbrev NewByBoard := List (String × List Article)

/-- Lookup in an insertion-ordered Python dict (first matching key). -/
def dictGet {α : Type} : List (String × α) → String → Option α
  | [], _ => none
  | p :: rest, k => if p.1 = k then some p.2 else dictGet rest k

/-- Python `d[k] = v`: update in place when the key is present (keeping its
position), otherwise append at the end. -/
def dictSet {α : Type} (d : List (String × α)) (k : String) (v : α) :
    List (String × α) :=
  if d.any (fun p => decide (p.1 = k)) then
    d.map (fun p => if p.1 = k then (k, v) else p)
  else
    d ++ [(k, v)]

/-- First-occurrence key order of Python's `dict.fromkeys` /
dict-comprehension key iteration, with the accumulator of already kept
keys made explicit. -/
def dedupFirstAux (seen : List String) : List String → List String
  | [] => []
  | x :: xs =>
    if x ∈ seen then dedupFirstAux seen xs
    else x :: dedupFirstAux (x :: seen) xs

/-- `list(dict.fromkeys(l))`: deduplicate keeping the first occurrence of
each element, preserving order. -/
def dedupFirst (l : List String) : List String := dedupFirstAux [] l

/-- `sort_key` of `extract_articles` (line 119-120): the id parsed as a
(non-negative) integer when it is a non-empty all-digit string, else 0. -/
def sort_key (a : Article) : Nat :=
  if a.id.data ≠ [] ∧ a.id.data.all Char.isDigit then
    a.id.data.foldl (fun n c => 10 * n + (c.toNat - 48)) 0
  else 0

/-- Insert an article into an already (descending, by `sort_key`) sorted
list, before the first element whose key is not greater: together with
`sortArticles` this is a stable descending sort, matching Python's stable
`list.sort(key=sort_key, reverse=True)`. -/
def insertArt (a : Article) : List Article → List Article
  | [] => [a]
  | b :: bs => if sort_key b ≤ sort_key a then a :: b :: bs else b :: insertArt a bs

/-- Stable descending insertion sort by `sort_key` (line 122). -/
def sortArticles : List Article → List Article
  | [] => []
  | a :: l => insertArt a (sortArticles l)

/-- `uniq = {it["id"]: it for it in items}; items = list(uniq.values())`
(lines 116-117): one article per id, keys in first-occurrence order, the
value for each id being the last item carrying it (last write wins). -/
def uniqValues (items : List Article) : List Article :=
  (dedupFirst (items.map (·.id))).filterMap
    (fun i => items.reverse.find? (fun a => decide (a.id = i)))

/-- The pure tail of `extract_articles` (lines 116-123), applied to the raw
per-anchor records scraped from the listing page (the HTML glue is an
oracle): dedupe by id last-write-wins, then stable sort descending. -/
def extract_articles (raw : List Article) : List Article :=
  sortArticles (uniqValues raw)

/-- Python `str.strip()` (whitespace modelled by `Char.isWhitespace`). -/
def pyStrip (s : List Char) : List Char :=
  ((s.dropWhile Char.isWhitespace).reverse.dropWhile Char.isWhitespace).reverse

/-- Python `str.rstrip()`. -/
def pyRstrip (s : List Char) : List Char :=
  (s.reverse.dropWhile Char.isWhitespace).reverse

/-- Whether `pat` occurs in `s` starting at index `i`. -/
def substrAt (s pat : List Char) (i : Nat) : Bool :=
  decide ((s.drop i).take pat.length = pat)

/-- Python `s.rfind(pat, 0, stop)`, as an `Option`: the largest index `i`
such that `pat` is contained within the slice `s[0:stop]` starting at `i`,
or `none` when there is no occurrence (Python's `-1`). -/
def pyRfind (s pat : List Char) (stop : Nat) : Option Nat :=
  let bound := min stop s.length
  if pat.length ≤ bound then
    ((List.range (bound - pat.length + 1)).filter (fun i => substrAt s pat i)).getLast?
  else none

/-- The sentence-boundary patterns of `summarize_text` (line 152). -/
def cutPats : List (List Char) :=
  ["니다.".data, "다.".data, ".".data, "!".data, "?".data, "요.".data]

/-- The `cut` computed by the loop of `summarize_text` (lines 151-156):
for the first pattern whose last occurrence within the first `maxChars`
characters starts at index ≥ 60, cut after that occurrence; otherwise cut
at `maxChars`.  A found occurrence starting before index 60 does not stop
the loop. -/
def chooseCut (t : List Char) (maxChars : Nat) : List (List Char) → Nat
  | [] => maxChars
  | pat :: rest =>
    match pyRfind t pat maxChars with
    | some idx => if 60 ≤ idx then idx + pat.length else chooseCut t maxChars rest
    | none => chooseCut t maxChars rest

/-- `summarize_text(text, max_chars)` (lines 144-158). -/
def summarize_text (text : String) (max_chars : Nat) : String :=
  if text = "" then ""
  else
    let t := pyStrip text.data
    if t.length ≤ max_chars then String.mk t
    else
      let cut := chooseCut t max_chars cutPats
      String.mk (pyRstrip (t.take cut) ++ ['…'])

/-- The full merged id list of line 299,
`list(dict.fromkeys(ids + list(seen)))`, before truncation to the cap;
`enum` stands for `list(seen)`, an enumeration of the set of previously
seen ids in Python's (unspecified) set iteration order. -/
def mergedFull (ids enum : List String) : List String :=
  dedupFirst (ids ++ enum)

/-- `enum` is an admissible value of Python's `list(set(prior))`: some
permutation of the distinct elements of `prior`. -/
def SetEnum (prior enum : List String) : Prop :=
  enum.Perm (dedupFirst prior)

instance (prior enum : List String) : Decidable (SetEnum prior enum) := by
  unfold SetEnum; infer_instance

/-- The classify-and-update step of `main` for a board that has prior state
(lines 281-300): classify new posts by membership of their id in the prior
seen list, cap at 50, attach summaries, reverse for display, and merge the
full extracted id list with an enumeration `enum` of the prior seen set,
truncated to 500.  Returns (display list, next seen list). -/
def boardStep (summarize : Article → String) (enum : List String)
    (articles : List Article) (prior : List String) :
    List Article × List String :=
  let ids := articles.map (·.id)
  let newPosts := (articles.filter (fun a => decide (a.id ∉ prior))).take 50
  let newPosts := newPosts.map (fun p => { p with summary := some (summarize p) })
  (newPosts.reverse, (mergedFull ids enum).take 500)

/-- Events observable at the boundary of one run, in order. -/
inductive Event where
  | board (name : String)
  | savedState (st : StateMap)
  | sentEmail (nbb : NewByBoard)
  | printed (msg : String)
deriving DecidableEq, Repr

/-- Whether an event is the state-file write. -/
def Event.isSaved : Event → Bool
  | .savedState _ => true
  | _ => false

/-- Oracles standing for the program's effectful collaborators. -/
structure RunEnv where
  /-- Whether `state.json` exists (`os.path.exists`). -/
  stateFileExists : Bool
  /-- Result of `json.load` on the state file when it exists; `.error`
  models a raised exception on a corrupt file. -/
  stateParse : Except String StateMap
  /-- `SEND_BACKLOG` parsed to a boolean. -/
  sendBacklog : Bool
  /-- Listing fetch + HTML scrape for a board url: the raw per-anchor
  records, or `.error` for a fetch/parse failure. -/
  listing : String → Except String (List Article)
  /-- `fetch_post_text` for a post url: body text or `.error`. -/
  fetchPost : String → Except String String
  /-- Python `list(set(prior))`: an enumeration of the prior seen set. -/
  setEnum : List String → List String

/-- `load_state` (lines 67-71): empty state when the file is absent,
otherwise the parse result (a corrupt file raises). -/
def load_state (fileExists : Bool) (parsed : Except String StateMap) :
    Except String StateMap :=
  if fileExists then parsed else .ok []

/-- The summary attached to a new post (lines 288-293): a failed detail
fetch is caught and degrades the summary to the empty string. -/
def postSummary (env : RunEnv) (p : Article) : String :=
  match env.fetchPost p.url with
  | .ok body => summarize_text body 180
  | .error _ => ""

/-- A configured board. -/
structure Board where
  name : String
  url : String
deriving DecidableEq, Repr

/-- The configured boards (lines 27-34). -/
def BOARDS : List Board :=
  [⟨"일반공지", "https://www.mju.ac.kr/mjukr/255/subview.do?fnctId=bbs&fnctNo=141"⟩,
   ⟨"행사공지", "https://www.mju.ac.kr/mjukr/256/subview.do?fnctId=bbs&fnctNo=142"⟩,
   ⟨"학사공지", "https://www.mju.ac.kr/mjukr/257/subview.do?fnctId=bbs&fnctNo=143"⟩,
   ⟨"장학/학자금공지", "https://www.mju.ac.kr/mjukr/259/subview.do?fnctId=bbs&fnctNo=145"⟩,
   ⟨"진로/취업/창업공지", "https://www.mju.ac.kr/mjukr/260/subview.do?fnctId=bbs&fnctNo=146"⟩,
   ⟨"학생활동공지", "https://www.mju.ac.kr/mjukr/5364/subview.do?fnctId=bbs&fnctNo=853"⟩]

/-- The body of one iteration of the board loop of `main` (lines 270-300),
once the raw listing has been scraped: either the first-run seeding branch
(lines 276-279, `state[name] = ids[:300]` with no new posts) or the
classify-and-update branch via `boardStep`. -/
def boardPass (env : RunEnv) (st : StateMap) (nbb : NewByBoard) (b : Board)
    (raw : List Article) : StateMap × NewByBoard :=
  let articles := extract_articles raw
  let ids := articles.map (·.id)
  if (dictGet st b.name).isNone ∧ env.sendBacklog = false then
    (dictSet st b.name (ids.take 300), dictSet nbb b.name [])
  else
    let prior := (dictGet st b.name).getD []
    let step := boardStep (postSummary env) (env.setEnum prior) articles prior
    (dictSet st b.name step.2, dictSet nbb b.name step.1)

/-- The per-board loop of `main`, threading the state and `new_by_board`
dicts and appending one `Event.board` per processed board; a listing
failure propagates and aborts the loop. -/
def processBoards (env : RunEnv) :
    List Board → StateMap → NewByBoard → List Event →
    List Event × Except String (StateMap × NewByBoard)
  | [], st, nbb, tr => (tr, .ok (st, nbb))
  | b :: bs, st, nbb, tr =>
    match env.listing b.url with
    | .error e => (tr, .error e)
    | .ok raw =>
      let next := boardPass env st nbb b raw
      processBoards env bs next.1 next.2 (tr ++ [Event.board b.name])

/-- What `main` leaves behind on success. -/
structure RunOutcome where
  finalState : StateMap
  newByBoard : NewByBoard
  message : String
deriving DecidableEq, Repr

/-- A whole run: the event trace together with the success outcome or the
propagated failure. -/
structure RunLog where
  trace : List Event
  result : Except String RunOutcome
deriving Repr

/-- `total_new` of line 304. -/
def totalNew (nbb : NewByBoard) : Nat :=
  (nbb.map (fun p => p.2.length)).sum

/-- `main` (lines 264-309): load state, process every board, persist the
state exactly once, then dispatch iff any new posts exist. -/
def runMain (env : RunEnv) : RunLog :=
  match load_state env.stateFileExists env.stateParse with
  | .error e => { trace := [], result := .error e }
  | .ok st =>
    match processBoards env BOARDS st [] [] with
    | (tr, .error e) => { trace := tr, result := .error e }
    | (tr, .ok (st2, nbb)) =>
      let tr := tr ++ [Event.savedState st2]
      let total := totalNew nbb
      if 0 < total then
        { trace := tr ++ [Event.sentEmail nbb,
            Event.printed ("Sent email: " ++ toString total ++ " new posts")],
          result := .ok ⟨st2, nbb, "Sent email: " ++ toString total ++ " new posts"⟩ }
      else
        { trace := tr ++ [Event.printed "No new posts"],
          result := .ok ⟨st2, nbb, "No new posts"⟩ }

/-! ### Concrete inputs used when evaluating the model -/

/-- An article with the given id, as scraped from a listing page. -/
def mkRawArt (i : String) : Article :=
  { id := i, title := "t" ++ i, date := none, url := "https://x/" ++ i,
    summary := none }

/-- A concrete scraped listing with three distinct numeric ids. -/
def rawW : List Article := [mkRawArt "3", mkRawArt "9", mkRawArt "5"]

/-- An article whose id is a single non-digit character, distinct for each
`n`. -/
def witArt (n : Nat) : Article :=
  { id := String.mk [Char.ofNat (1000 + n)], title := "t", date := none,
    url := "u", summary := none }

/-- Sixty such articles. -/
def witArts60 : List Article := (List.range 60).map witArt

/-- An article whose id is the letter a repeated `n` times, hence distinct
for each `n` and non-numeric. -/
def cexArt (n : Nat) : Article :=
  { id := String.mk (List.replicate n 'a'), title := "t", date := none,
    url := "u", summary := none }

/-- 501 such articles: one more than the persisted-state cap. -/
def cexArts : List Article := (List.range 501).map cexArt

/-- An environment with no state file, empty listings and a failing
detail-fetch oracle. -/
def envW : RunEnv :=
  { stateFileExists := false
    stateParse := .error "unused"
    sendBacklog := false
    listing := fun _ => .ok []
    fetchPost := fun _ => .error "requests.exceptions.ConnectionError"
    setEnum := fun l => dedupFirst l }

/-- As `envW` but every listing page scrapes to `rawW`. -/
def envSeedW : RunEnv := { envW with listing := fun _ => .ok rawW }

/-- As `envSeedW` but with backlog sending enabled. -/
def envBacklogW : RunEnv := { envSeedW with sendBacklog := true }

/-- An environment whose state file exists but fails to parse. -/
def envCorruptW : RunEnv :=
  { envW with
    stateFileExists := true
    stateParse := .error "json.decoder.JSONDecodeError" }

/-- The outcome of running `main` under `envW`: every board gets seeded,
nothing is new. -/
def outW : RunOutcome :=
  { finalState := [("일반공지", []), ("행사공지", []), ("학사공지", []),
      ("장학/학자금공지", []), ("진로/취업/창업공지", []), ("학생활동공지", [])]
    newByBoard := [("일반공지", []), ("행사공지", []), ("학사공지", []),
      ("장학/학자금공지", []), ("진로/취업/창업공지", []), ("학생활동공지", [])]
    message := "No new posts" }

/-! ### Properties of the first-occurrence deduplication -/

theorem mem_dedupFirstAux (a : String) (l : List String) : ∀ seen : List String,
    a ∈ dedupFirstAux seen l ↔ a ∈ l ∧ a ∉ seen := by
  induction l with
  | nil => intro seen; simp [dedupFirstAux]
  | cons x xs ih =>
    intro seen
    by_cases hx : x ∈ seen
    · rw [show dedupFirstAux seen (x :: xs) = dedupFirstAux seen xs by
        simp [dedupFirstAux, hx], ih seen]
      constructor
      · rintro ⟨h1, h2⟩
        exact ⟨List.mem_cons_of_mem _ h1, h2⟩
      · rintro ⟨h1, h2⟩
        rcases List.mem_cons.mp h1 with rfl | h1
        · exact absurd hx h2
        · exact ⟨h1, h2⟩
    · rw [show dedupFirstAux seen (x :: xs) = x :: dedupFirstAux (x :: seen) xs by
        simp [dedupFirstAux, hx]]
      constructor
      · intro h
        rcases List.mem_cons.mp h with rfl | h
        · exact ⟨List.mem_cons_self _ _, hx⟩
        · obtain ⟨h1, h2⟩ := (ih (x :: seen)).mp h
          exact ⟨List.mem_cons_of_mem _ h1,
            fun hs => h2 (List.mem_cons_of_mem _ hs)⟩
      · rintro ⟨h1, h2⟩
        by_cases hax : a = x
        · subst hax; exact List.mem_cons_self _ _
        · rcases List.mem_cons.mp h1 with rfl | h1
          · exact absurd rfl hax
          · refine List.mem_cons_of_mem _ ((ih (x :: seen)).mpr ⟨h1, fun hs => ?_⟩)
            rcases List.mem_cons.mp hs with h | h
            · exact hax h
            · exact h2 h

theorem nodup_dedupFirstAux (l : List String) : ∀ seen : List String,
    (dedupFirstAux seen l).Nodup := by
  induction l with
  | nil => intro seen; simp [dedupFirstAux]
  | cons x xs ih =>
    intro seen
    by_cases hx : x ∈ seen
    · simpa [dedupFirstAux, hx] using ih seen
    · rw [show dedupFirstAux seen (x :: xs) = x :: dedupFirstAux (x :: seen) xs by
        simp [dedupFirstAux, hx]]
      refine List.nodup_cons.mpr ⟨fun hmem => ?_, ih (x :: seen)⟩
      exact ((mem_dedupFirstAux x xs (x :: seen)).mp hmem).2 (List.mem_cons_self _ _)

theorem dedupFirstAux_eq_self (l : List String) : ∀ seen : List String, l.Nodup →
    (∀ x ∈ l, x ∉ seen) → dedupFirstAux seen l = l := by
  induction l with
  | nil => intro seen _ _; rfl
  | cons x xs ih =>
    intro seen hnd hdisj
    have hx : x ∉ seen := hdisj x (List.mem_cons_self _ _)
    rw [show dedupFirstAux seen (x :: xs) = x :: dedupFirstAux (x :: seen) xs by
      simp [dedupFirstAux, hx]]
    congr 1
    refine ih (x :: seen) (List.nodup_cons.mp hnd).2 fun y hy hmem => ?_
    rcases List.mem_cons.mp hmem with rfl | hmem
    · exact (List.nodup_cons.mp hnd).1 hy
    · exact hdisj y (List.mem_cons_of_mem _ hy) hmem

theorem dedupFirstAux_append (l : List String) : ∀ seen m : List String, l.Nodup →
    (∀ x ∈ l, x ∉ seen) →
    dedupFirstAux seen (l ++ m) = l ++ dedupFirstAux (l.reverse ++ seen) m := by
  induction l with
  | nil => intro seen m _ _; simp
  | cons x xs ih =>
    intro seen m hnd hdisj
    have hx : x ∉ seen := hdisj x (List.mem_cons_self _ _)
    rw [List.cons_append,
      show dedupFirstAux seen (x :: (xs ++ m)) =
        x :: dedupFirstAux (x :: seen) (xs ++ m) by simp [dedupFirstAux, hx],
      ih (x :: seen) m (List.nodup_cons.mp hnd).2 fun y hy hmem => by
        rcases List.mem_cons.mp hmem with rfl | hmem
        · exact (List.nodup_cons.mp hnd).1 hy
        · exact hdisj y (List.mem_cons_of_mem _ hy) hmem]
    simp [List.reverse_cons, List.append_assoc]

theorem mem_dedupFirst (a : String) (l : List String) :
    a ∈ dedupFirst l ↔ a ∈ l := by
  simp [dedupFirst, mem_dedupFirstAux]

theorem nodup_dedupFirst (l : List String) : (dedupFirst l).Nodup :=
  nodup_dedupFirstAux l []

theorem dedupFirst_eq_self {l : List String} (h : l.Nodup) : dedupFirst l = l :=
  dedupFirstAux_eq_self l [] h (by simp)

theorem dedupFirst_append_of_nodup {l : List String} (m : List String)
    (h : l.Nodup) : dedupFirst (l ++ m) = l ++ dedupFirstAux l.reverse m := by
  have := dedupFirstAux_append l [] m h (by simp)
  simpa [dedupFirst] using this

/-! ### Properties of the id merge of line 299 -/

theorem mem_mergedFull {prior : List String} (ids enum : List String)
    (hse : SetEnum prior enum) (x : String) :
    x ∈ mergedFull ids enum ↔ x ∈ ids ∨ x ∈ prior := by
  rw [mergedFull, mem_dedupFirst, List.mem_append, hse.mem_iff, mem_dedupFirst]

theorem nodup_mergedFull (ids enum : List String) :
    (mergedFull ids enum).Nodup := nodup_dedupFirst _

theorem mergedFull_eq_append {ids : List String} (enum : List String)
    (h : ids.Nodup) : ∃ t, mergedFull ids enum = ids ++ t :=
  ⟨_, dedupFirst_append_of_nodup enum h⟩

theorem mem_take_mergedFull {ids : List String} (enum : List String)
    (h : ids.Nodup) (hlen : ids.length ≤ 500) {x : String} (hx : x ∈ ids) :
    x ∈ (mergedFull ids enum).take 500 := by
  obtain ⟨t, ht⟩ := mergedFull_eq_append enum h
  rw [ht, List.take_append_eq_append_take, List.take_of_length_le hlen]
  exact List.mem_append_left _ hx

/-! ### Properties of the Python-dict model -/

theorem dictGet_eq_none_of_not_any {α : Type} (d : List (String × α))
    (k : String) (h : d.any (fun p => decide (p.1 = k)) = false) :
    dictGet d k = none := by
  induction d with
  | nil => rfl
  | cons p rest ih =>
    simp only [List.any_cons, Bool.or_eq_false_iff, decide_eq_false_iff_not] at h
    rw [dictGet, if_neg h.1]
    exact ih h.2

theorem dictGet_append_one_ne {α : Type} (d : List (String × α))
    {k k2 : String} (v : α) (hne : k2 ≠ k) :
    dictGet (d ++ [(k, v)]) k2 = dictGet d k2 := by
  induction d with
  | nil =>
    have hk2 : ¬ (k = k2) := fun h => hne h.symm
    simp [dictGet, hk2]
  | cons p rest ih =>
    by_cases hp : p.1 = k2 <;> simp [dictGet, hp, ih]

theorem dictGet_append_one_self {α : Type} (d : List (String × α))
    {k : String} (v : α) (h : dictGet d k = none) :
    dictGet (d ++ [(k, v)]) k = some v := by
  induction d with
  | nil => simp [dictGet]
  | cons p rest ih =>
    rw [dictGet] at h
    by_cases hp : p.1 = k
    · rw [if_pos hp] at h; cases h
    · rw [if_neg hp] at h
      simp [dictGet, hp, ih h]

theorem dictGet_map_update_self {α : Type} (d : List (String × α))
    (k : String) (v : α) (h : d.any (fun p => decide (p.1 = k)) = true) :
    dictGet (d.map (fun p => if p.1 = k then (k, v) else p)) k = some v := by
  induction d with
  | nil => cases h
  | cons p rest ih =>
    simp only [List.any_cons, Bool.or_eq_true] at h
    by_cases hp : p.1 = k
    · simp [List.map_cons, if_pos hp, dictGet]
    · rcases h with h | h
      · rw [decide_eq_true_eq] at h; exact absurd h hp
      · simp [List.map_cons, if_neg hp, dictGet, hp, ih h]

theorem dictGet_map_update_ne {α : Type} (d : List (String × α))
    {k k2 : String} (v : α) (hne : k2 ≠ k) :
    dictGet (d.map (fun p => if p.1 = k then (k, v) else p)) k2 =
      dictGet d k2 := by
  induction d with
  | nil => rfl
  | cons p rest ih =>
    by_cases hp : p.1 = k
    · have hk2 : ¬ (k = k2) := fun h => hne h.symm
      have hp2 : ¬ (p.1 = k2) := by rw [hp]; exact hk2
      simp only [List.map_cons, if_pos hp, dictGet, if_neg hk2, if_neg hp2]
      exact ih
    · simp only [List.map_cons, if_neg hp, dictGet]
      rw [ih]

theorem dictGet_dictSet_self {α : Type} (d : List (String × α))
    (k : String) (v : α) : dictGet (dictSet d k v) k = some v := by
  rw [dictSet]
  by_cases h : d.any (fun p => decide (p.1 = k)) = true
  · rw [if_pos h]
    exact dictGet_map_update_self d k v h
  · rw [if_neg h]
    refine dictGet_append_one_self d v (dictGet_eq_none_of_not_any d k ?_)
    simp only [Bool.not_eq_true] at h
    exact h

theorem dictGet_dictSet_ne {α : Type} (d : List (String × α))
    {k k2 : String} (v : α) (hne : k2 ≠ k) :
    dictGet (dictSet d k v) k2 = dictGet d k2 := by
  rw [dictSet]
  by_cases h : d.any (fun p => decide (p.1 = k)) = true
  · rw [if_pos h]
    exact dictGet_map_update_ne d v hne
  · rw [if_neg h]
    exact dictGet_append_one_ne d v hne

/-! ### Properties of the stable descending sort of `extract_articles` -/

theorem mem_insertArt (a x : Article) (l : List Article) :
    x ∈ insertArt a l ↔ x = a ∨ x ∈ l := by
  induction l with
  | nil => simp [insertArt]
  | cons b bs ih =>
    by_cases h : sort_key b ≤ sort_key a
    · simp [insertArt, if_pos h, List.mem_cons]
    · simp only [insertArt, if_neg h, List.mem_cons, ih]
      tauto

theorem perm_insertArt (a : Article) (l : List Article) :
    (insertArt a l).Perm (a :: l) := by
  induction l with
  | nil => simp [insertArt]
  | cons b bs ih =>
    by_cases h : sort_key b ≤ sort_key a
    · simp [insertArt, if_pos h]
    · rw [show insertArt a (b :: bs) = b :: insertArt a bs by
        simp [insertArt, h]]
      exact List.Perm.trans (ih.cons b) (List.Perm.swap a b bs)

theorem sortArticles_perm (l : List Article) : (sortArticles l).Perm l := by
  induction l with
  | nil => simp [sortArticles]
  | cons a l ih =>
    exact List.Perm.trans (perm_insertArt a (sortArticles l)) (ih.cons a)

theorem pairwise_insertArt (a : Article) (l : List Article)
    (h : l.Pairwise (fun x y => sort_key y ≤ sort_key x)) :
    (insertArt a l).Pairwise (fun x y => sort_key y ≤ sort_key x) := by
  induction l with
  | nil => simp [insertArt]
  | cons b bs ih =>
    obtain ⟨hb, hbs⟩ := List.pairwise_cons.mp h
    by_cases hle : sort_key b ≤ sort_key a
    · rw [show insertArt a (b :: bs) = a :: b :: bs by simp [insertArt, hle]]
      refine List.pairwise_cons.mpr ⟨fun y hy => ?_, h⟩
      rcases List.mem_cons.mp hy with rfl | hy
      · exact hle
      · exact le_trans (hb y hy) hle
    · rw [show insertArt a (b :: bs) = b :: insertArt a bs by simp [insertArt, hle]]
      refine List.pairwise_cons.mpr ⟨fun y hy => ?_, ih hbs⟩
      rcases (mem_insertArt a y bs).mp hy with rfl | hy
      · exact le_of_not_le hle
      · exact hb y hy

theorem pairwise_sortArticles (l : List Article) :
    (sortArticles l).Pairwise (fun x y => sort_key y ≤ sort_key x) := by
  induction l with
  | nil => simp [sortArticles]
  | cons a l ih => exact pairwise_insertArt a _ ih

theorem insertArt_of_le (a : Article) (l : List Article)
    (h : ∀ b ∈ l, sort_key b ≤ sort_key a) : insertArt a l = a :: l := by
  cases l with
  | nil => rfl
  | cons b bs => simp [insertArt, if_pos (h b (List.mem_cons_self _ _))]

theorem sortArticles_eq_self {l : List Article}
    (h : l.Pairwise (fun x y => sort_key y ≤ sort_key x)) :
    sortArticles l = l := by
  induction l with
  | nil => rfl
  | cons a l ih =>
    obtain ⟨ha, hl⟩ := List.pairwise_cons.mp h
    rw [sortArticles, ih hl, insertArt_of_le a l ha]

/-! ### Properties of the last-write-wins dedup of `extract_articles` -/

theorem find?_reverse_eq_self {l : List Article} (hn : (l.map (·.id)).Nodup)
    {b : Article} (hb : b ∈ l) :
    l.reverse.find? (fun a => decide (a.id = b.id)) = some b := by
  induction l with
  | nil => cases hb
  | cons c rest ih =>
    simp only [List.map_cons, List.nodup_cons] at hn
    obtain ⟨hc, hrest⟩ := hn
    rw [List.reverse_cons, List.find?_append]
    rcases List.mem_cons.mp hb with rfl | hb
    · have hnone : rest.reverse.find? (fun a => decide (a.id = b.id)) = none := by
        rw [List.find?_eq_none]
        intro x hx
        simp only [decide_eq_true_eq]
        intro hid
        exact hc (by
          rw [← hid]
          exact List.mem_map_of_mem _ (List.mem_reverse.mp hx))
      rw [hnone]
      simp [List.find?]
    · rw [ih hrest hb]
      rfl

theorem filterMap_eq_self_of {α : Type} (l : List α) (f : α → Option α)
    (h : ∀ i ∈ l, f i = some i) : l.filterMap f = l := by
  induction l with
  | nil => rfl
  | cons x xs ih =>
    simp [List.filterMap_cons, h x (List.mem_cons_self _ _),
      ih fun i hi => h i (List.mem_cons_of_mem _ hi)]

theorem filterMap_find?_eq_self {big : List Article}
    (hn : (big.map (·.id)).Nodup) :
    ∀ l : List Article, (∀ b ∈ l, b ∈ big) →
      (l.map (·.id)).filterMap
        (fun i => big.reverse.find? (fun a => decide (a.id = i))) = l := by
  intro l
  induction l with
  | nil => intro _; rfl
  | cons b rest ih =>
    intro hsub
    simp only [List.map_cons, List.filterMap_cons]
    rw [find?_reverse_eq_self hn (hsub b (List.mem_cons_self _ _))]
    rw [ih fun x hx => hsub x (List.mem_cons_of_mem _ hx)]

theorem uniqValues_eq_self {l : List Article} (hn : (l.map (·.id)).Nodup) :
    uniqValues l = l := by
  rw [uniqValues, dedupFirst_eq_self hn,
    filterMap_find?_eq_self hn l fun b hb => hb]

theorem map_id_uniqValues (raw : List Article) :
    (uniqValues raw).map (·.id) = dedupFirst (raw.map (·.id)) := by
  rw [uniqValues, List.map_filterMap]
  refine filterMap_eq_self_of _ _ fun i hi => ?_
  have hi2 : i ∈ raw.map (·.id) := (mem_dedupFirst i _).mp hi
  obtain ⟨a, ha, rfl⟩ := List.mem_map.mp hi2
  rcases hfind : raw.reverse.find? (fun x => decide (x.id = a.id)) with _ | a0
  · exfalso
    rw [List.find?_eq_none] at hfind
    exact hfind a (List.mem_reverse.mpr ha) (by simp)
  · have := List.find?_some hfind
    rw [decide_eq_true_eq] at this
    simp [hfind, this]

theorem nodup_ids_extract (raw : List Article) :
    ((extract_articles raw).map (·.id)).Nodup := by
  have hperm := (sortArticles_perm (uniqValues raw)).map (·.id)
  rw [map_id_uniqValues] at hperm
  exact hperm.nodup_iff.mpr (nodup_dedupFirst _)

theorem extract_articles_eq_self {l : List Article}
    (hn : (l.map (·.id)).Nodup)
    (hs : l.Pairwise (fun x y => sort_key y ≤ sort_key x)) :
    extract_articles l = l := by
  rw [extract_articles, uniqValues_eq_self hn, sortArticles_eq_self hs]

/-! ### Properties of the per-board pass and the board loop -/

theorem boardPass_seed (env : RunEnv) (st : StateMap) (nbb : NewByBoard)
    (b : Board) (raw : List Article)
    (h1 : dictGet st b.name = none) (h2 : env.sendBacklog = false) :
    boardPass env st nbb b raw =
      (dictSet st b.name (((extract_articles raw).map (·.id)).take 300),
       dictSet nbb b.name []) := by
  simp only [boardPass, h1, Option.isNone_none, h2, and_self, if_true]

theorem boardPass_classify (env : RunEnv) (st : StateMap) (nbb : NewByBoard)
    (b : Board) (raw : List Article)
    (h : ¬ (dictGet st b.name = none ∧ env.sendBacklog = false)) :
    boardPass env st nbb b raw =
      (dictSet st b.name (boardStep (postSummary env)
          (env.setEnum ((dictGet st b.name).getD []))
          (extract_articles raw) ((dictGet st b.name).getD [])).2,
       dictSet nbb b.name (boardStep (postSummary env)
          (env.setEnum ((dictGet st b.name).getD []))
          (extract_articles raw) ((dictGet st b.name).getD [])).1) := by
  have h2 : ¬ ((dictGet st b.name).isNone = true ∧ env.sendBacklog = false) :=
    fun hc => h ⟨Option.isNone_iff_eq_none.mp hc.1, hc.2⟩
  simp only [boardPass, if_neg h2]

theorem dictGet_boardPass_fst_ne (env : RunEnv) (st : StateMap)
    (nbb : NewByBoard) (b : Board) (raw : List Article) {k : String}
    (hne : k ≠ b.name) :
    dictGet (boardPass env st nbb b raw).1 k = dictGet st k := by
  by_cases hc : (dictGet st b.name).isNone = true ∧ env.sendBacklog = false
  · simp only [boardPass, if_pos hc]
    exact dictGet_dictSet_ne _ _ hne
  · simp only [boardPass, if_neg hc]
    exact dictGet_dictSet_ne _ _ hne

theorem dictGet_boardPass_snd_ne (env : RunEnv) (st : StateMap)
    (nbb : NewByBoard) (b : Board) (raw : List Article) {k : String}
    (hne : k ≠ b.name) :
    dictGet (boardPass env st nbb b raw).2 k = dictGet nbb k := by
  by_cases hc : (dictGet st b.name).isNone = true ∧ env.sendBacklog = false
  · simp only [boardPass, if_pos hc]
    exact dictGet_dictSet_ne _ _ hne
  · simp only [boardPass, if_neg hc]
    exact dictGet_dictSet_ne _ _ hne

theorem boardPass_fst_bounded (env : RunEnv) (st : StateMap)
    (nbb : NewByBoard) (b : Board) (raw : List Article) :
    ∃ l, dictGet (boardPass env st nbb b raw).1 b.name = some l ∧
      l.length ≤ 500 := by
  by_cases hc : dictGet st b.name = none ∧ env.sendBacklog = false
  · rw [boardPass_seed env st nbb b raw hc.1 hc.2]
    refine ⟨_, dictGet_dictSet_self _ _ _, ?_⟩
    simp only [List.length_take]
    omega
  · rw [boardPass_classify env st nbb b raw hc]
    refine ⟨_, dictGet_dictSet_self _ _ _, ?_⟩
    simp only [boardStep, List.length_take]
    omega

theorem processBoards_preserve (env : RunEnv) :
    ∀ (bs : List Board) (st : StateMap) (nbb : NewByBoard)
      (tr tr2 : List Event) (st2 : StateMap) (nbb2 : NewByBoard),
      processBoards env bs st nbb tr = (tr2, .ok (st2, nbb2)) →
      ∀ k, k ∉ bs.map (·.name) →
        dictGet st2 k = dictGet st k ∧ dictGet nbb2 k = dictGet nbb k := by
  intro bs
  induction bs with
  | nil =>
    intro st nbb tr tr2 st2 nbb2 h k _
    simp only [processBoards, Prod.mk.injEq, Except.ok.injEq] at h
    obtain ⟨-, h2, h3⟩ := h
    rw [h2, h3]
    exact ⟨rfl, rfl⟩
  | cons b rest ih =>
    intro st nbb tr tr2 st2 nbb2 h k hk
    simp only [List.map_cons, List.mem_cons, not_or] at hk
    obtain ⟨hk1, hk2⟩ := hk
    rcases hL : env.listing b.url with e | raw
    · simp only [processBoards, hL] at h
      obtain ⟨-, h2⟩ := Prod.mk.injEq .. ▸ h
      cases h2
    · simp only [processBoards, hL] at h
      obtain ⟨h1, h2⟩ := ih _ _ _ _ _ _ h k hk2
      rw [h1, h2, dictGet_boardPass_fst_ne env st nbb b raw hk1,
        dictGet_boardPass_snd_ne env st nbb b raw hk1]
      exact ⟨rfl, rfl⟩

theorem processBoards_trace (env : RunEnv) :
    ∀ (bs : List Board) (st : StateMap) (nbb : NewByBoard) (tr : List Event),
      ∃ add, (processBoards env bs st nbb tr).1 = tr ++ add ∧
        ∀ ev ∈ add, ∃ nm, ev = Event.board nm := by
  intro bs
  induction bs with
  | nil =>
    intro st nbb tr
    exact ⟨[], by simp [processBoards], by simp⟩
  | cons b rest ih =>
    intro st nbb tr
    rcases hL : env.listing b.url with e | raw
    · exact ⟨[], by simp [processBoards, hL], by simp⟩
    · obtain ⟨add, h1, h2⟩ := ih (boardPass env st nbb b raw).1
        (boardPass env st nbb b raw).2 (tr ++ [Event.board b.name])
      refine ⟨Event.board b.name :: add, ?_, ?_⟩
      · simp only [processBoards, hL]
        rw [h1]
        simp
      · intro ev hev
        rcases List.mem_cons.mp hev with rfl | hev
        · exact ⟨b.name, rfl⟩
        · exact h2 ev hev

theorem processBoards_board (env : RunEnv) :
    ∀ (bs : List Board) (st : StateMap) (nbb : NewByBoard)
      (tr tr2 : List Event) (st2 : StateMap) (nbb2 : NewByBoard) (b : Board),
      (bs.map (·.name)).Nodup → b ∈ bs →
      processBoards env bs st nbb tr = (tr2, .ok (st2, nbb2)) →
      ∃ raw, env.listing b.url = .ok raw ∧
        ((dictGet st b.name = none ∧ env.sendBacklog = false ∧
          dictGet st2 b.name =
            some (((extract_articles raw).map (·.id)).take 300) ∧
          dictGet nbb2 b.name = some []) ∨
         (¬ (dictGet st b.name = none ∧ env.sendBacklog = false) ∧
          dictGet st2 b.name = some (boardStep (postSummary env)
            (env.setEnum ((dictGet st b.name).getD []))
            (extract_articles raw) ((dictGet st b.name).getD [])).2 ∧
          dictGet nbb2 b.name = some (boardStep (postSummary env)
            (env.setEnum ((dictGet st b.name).getD []))
            (extract_articles raw) ((dictGet st b.name).getD [])).1)) := by
  intro bs
  induction bs with
  | nil => intro _ _ _ _ _ _ b _ hb; cases hb
  | cons c rest ih =>
    intro st nbb tr tr2 st2 nbb2 b hnd hb h
    simp only [List.map_cons, List.nodup_cons] at hnd
    obtain ⟨hcn, hndrest⟩ := hnd
    rcases hL : env.listing c.url with e | raw
    · simp only [processBoards, hL] at h
      obtain ⟨-, h2⟩ := Prod.mk.injEq .. ▸ h
      cases h2
    · simp only [processBoards, hL] at h
      rcases List.mem_cons.mp hb with rfl | hb
      · refine ⟨raw, hL, ?_⟩
        have hpres := processBoards_preserve env rest _ _ _ _ _ _ h b.name hcn
        by_cases hcond : dictGet st b.name = none ∧ env.sendBacklog = false
        · left
          refine ⟨hcond.1, hcond.2, ?_, ?_⟩
          · rw [hpres.1, boardPass_seed env st nbb b raw hcond.1 hcond.2]
            exact dictGet_dictSet_self _ _ _
          · rw [hpres.2, boardPass_seed env st nbb b raw hcond.1 hcond.2]
            exact dictGet_dictSet_self _ _ _
        · right
          refine ⟨hcond, ?_, ?_⟩
          · rw [hpres.1, boardPass_classify env st nbb b raw hcond]
            exact dictGet_dictSet_self _ _ _
          · rw [hpres.2, boardPass_classify env st nbb b raw hcond]
            exact dictGet_dictSet_self _ _ _
      · have hbne : b.name ≠ c.name := by
          intro hEq
          exact hcn (hEq ▸ List.mem_map_of_mem (·.name) hb)
        obtain ⟨raw2, hL2, hdisj⟩ := ih _ _ _ _ _ _ b hndrest hb h
        rw [dictGet_boardPass_fst_ne env st nbb c raw hbne] at hdisj
        exact ⟨raw2, hL2, hdisj⟩

/-! ### Inversion of a successful run -/

theorem runMain_ok_inv (env : RunEnv) (r : RunOutcome)
    (h : (runMain env).result = .ok r) :
    ∃ st0 tr,
      load_state env.stateFileExists env.stateParse = .ok st0 ∧
      processBoards env BOARDS st0 [] [] =
        (tr, .ok (r.finalState, r.newByBoard)) ∧
      (runMain env).trace = tr ++ Event.savedState r.finalState ::
        (if 0 < totalNew r.newByBoard then
          [Event.sentEmail r.newByBoard,
           Event.printed ("Sent email: " ++ toString (totalNew r.newByBoard)
             ++ " new posts")]
         else [Event.printed "No new posts"]) ∧
      r.message = (if 0 < totalNew r.newByBoard then
          "Sent email: " ++ toString (totalNew r.newByBoard) ++ " new posts"
        else "No new posts") := by
  rcases hld : load_state env.stateFileExists env.stateParse with e | st0
  · simp only [runMain, hld] at h
    cases h
  · rcases hpb : processBoards env BOARDS st0 [] [] with ⟨tr, res⟩
    rcases res with e | ⟨st2, nbb⟩
    · simp only [runMain, hld, hpb] at h
      cases h
    · by_cases htot : 0 < totalNew nbb
      · simp only [runMain, hld, hpb, if_pos htot] at h
        obtain rfl := (Except.ok.injEq ..) ▸ h
        refine ⟨st0, tr, rfl, hpb, ?_, ?_⟩
        · simp only [runMain, hld, hpb, if_pos htot]
          simp
        · simp only [if_pos htot]
      · simp only [runMain, hld, hpb, if_neg htot] at h
        obtain rfl := (Except.ok.injEq ..) ▸ h
        refine ⟨st0, tr, rfl, hpb, ?_, ?_⟩
        · simp only [runMain, hld, hpb, if_neg htot]
          simp
        · simp only [if_neg htot]

/-! ### The detail-fetch oracle cannot affect control flow or state -/

theorem boardPass_fst_indep_fetch (env : RunEnv)
    (f : String → Except String String) (st : StateMap)
    (nbb1 nbb2 : NewByBoard) (b : Board) (raw : List Article) :
    (boardPass { env with fetchPost := f } st nbb1 b raw).1 =
    (boardPass env st nbb2 b raw).1 := by
  by_cases hc : dictGet st b.name = none ∧ env.sendBacklog = false
  · rw [boardPass_seed { env with fetchPost := f } st nbb1 b raw hc.1 hc.2,
      boardPass_seed env st nbb2 b raw hc.1 hc.2]
  · rw [boardPass_classify { env with fetchPost := f } st nbb1 b raw hc,
      boardPass_classify env st nbb2 b raw hc]
    rfl

theorem processBoards_result_indep_fetch (env : RunEnv)
    (f : String → Except String String) :
    ∀ (bs : List Board) (st : StateMap) (nbb1 nbb2 : NewByBoard)
      (tr1 tr2 : List Event),
      (processBoards { env with fetchPost := f } bs st nbb1 tr1).2.map
        Prod.fst =
      (processBoards env bs st nbb2 tr2).2.map Prod.fst := by
  intro bs
  induction bs with
  | nil => intro st nbb1 nbb2 tr1 tr2; rfl
  | cons b rest ih =>
    intro st nbb1 nbb2 tr1 tr2
    rcases hL : env.listing b.url with e | raw
    · have hL2 : ({ env with fetchPost := f } : RunEnv).listing b.url =
        .error e := hL
      simp only [processBoards, hL, hL2]
    · have hL2 : ({ env with fetchPost := f } : RunEnv).listing b.url =
        .ok raw := hL
      simp only [processBoards, hL, hL2]
      rw [boardPass_fst_indep_fetch env f st nbb1 nbb2 b raw]
      exact ih _ _ _ _ _

theorem runMain_isOk_indep_fetch (env : RunEnv)
    (f : String → Except String String) :
    ((runMain { env with fetchPost := f }).result).isOk =
    ((runMain env).result).isOk := by
  have hload : load_state ({ env with fetchPost := f } : RunEnv).stateFileExists
      ({ env with fetchPost := f } : RunEnv).stateParse =
      load_state env.stateFileExists env.stateParse := rfl
  rcases hld : load_state env.stateFileExists env.stateParse with e | st0
  · rw [hld] at hload
    simp only [runMain, hld, hload]
  · rw [hld] at hload
    have h := processBoards_result_indep_fetch env f BOARDS st0 [] [] [] []
    rcases hp1 : processBoards { env with fetchPost := f } BOARDS st0 [] []
      with ⟨tr1, res1⟩
    rcases hp2 : processBoards env BOARDS st0 [] [] with ⟨tr2, res2⟩
    rw [hp1, hp2] at h
    simp only [runMain, hld, hload, hp1, hp2]
    rcases res1 with e1 | p1 <;> rcases res2 with e2 | p2
    · rfl
    · simp [Except.map] at h
    · simp [Except.map] at h
    · rcases p1 with ⟨sa, na⟩
      rcases p2 with ⟨sb, nb⟩
      by_cases h1 : 0 < totalNew na <;> by_cases h2 : 0 < totalNew nb <;>
        simp [h1, h2, Except.isOk, Except.toBool]

/-! ### Properties of `summarize_text` -/

theorem pyRfind_le {s pat : List Char} {stop i : Nat}
    (h : pyRfind s pat stop = some i) : i + pat.length ≤ min stop s.length := by
  simp only [pyRfind] at h
  by_cases hb : pat.length ≤ min stop s.length
  · rw [if_pos hb] at h
    obtain ⟨ys, hys⟩ := List.getLast?_eq_some_iff.mp h
    have hmem : i ∈ (List.range (min stop s.length - pat.length + 1)).filter
        (fun j => substrAt s pat j) := by
      rw [hys]; simp
    have hlt := (List.mem_filter.mp hmem).1
    rw [List.mem_range] at hlt
    omega
  · rw [if_neg hb] at h
    cases h

theorem chooseCut_le (t : List Char) (maxChars : Nat) :
    ∀ pats : List (List Char), chooseCut t maxChars pats ≤ maxChars := by
  intro pats
  induction pats with
  | nil => exact le_refl _
  | cons pat rest ih =>
    rcases hf : pyRfind t pat maxChars with _ | idx <;>
      simp only [chooseCut, hf]
    · exact ih
    · by_cases h60 : 60 ≤ idx
      · rw [if_pos h60]
        have := pyRfind_le hf
        omega
      · rw [if_neg h60]
        exact ih

theorem length_pyRstrip_le (s : List Char) : (pyRstrip s).length ≤ s.length := by
  simp only [pyRstrip, List.length_reverse]
  exact le_trans (List.dropWhile_sublist _).length_le (by simp)

/-! ### Shared facts about empty classifications and the concrete inputs -/

theorem boardStep_fst_eq_nil (summarize : Article → String)
    (enum : List String) (articles : List Article) (prior : List String)
    (h : ∀ a ∈ articles, a.id ∈ prior) :
    (boardStep summarize enum articles prior).1 = [] := by
  simp only [boardStep]
  rw [List.filter_eq_nil_iff.mpr fun a ha => by
    simp only [decide_eq_true_eq]
    intro hcon
    exact hcon (h a ha)]
  simp

theorem cexArt_id_inj : Function.Injective fun n => (cexArt n).id := by
  intro m n h
  have h2 : List.replicate m 'a' = List.replicate n 'a' := congrArg String.data h
  have h3 := congrArg List.length h2
  simpa using h3

theorem sort_key_cexArt (n : Nat) : sort_key (cexArt n) = 0 := by
  cases n with
  | zero => decide
  | succ m =>
    rw [sort_key, if_neg]
    intro hcond
    have hall := hcond.2
    have hdig : ('a'.isDigit) = false := rfl
    simp [cexArt, List.replicate_succ, List.all_cons, hdig] at hall

theorem pairwise_key_zero (l : List Article) (h : ∀ a ∈ l, sort_key a = 0) :
    l.Pairwise (fun x y => sort_key y ≤ sort_key x) := by
  induction l with
  | nil => exact List.Pairwise.nil
  | cons a l ih =>
    refine List.pairwise_cons.mpr
      ⟨fun y hy => ?_, ih fun a2 ha2 => h a2 (List.mem_cons_of_mem _ ha2)⟩
    rw [h y (List.mem_cons_of_mem _ hy), h a (List.mem_cons_self _ _)]

theorem nodup_ids_cexArts : (cexArts.map (·.id)).Nodup := by
  rw [cexArts, List.map_map]
  exact List.Nodup.map cexArt_id_inj (List.nodup_range 501)

theorem extract_cexArts : extract_articles cexArts = cexArts :=
  extract_articles_eq_self nodup_ids_cexArts
    (pairwise_key_zero _ fun a ha => by
      obtain ⟨n, -, rfl⟩ := List.mem_map.mp ha
      exact sort_key_cexArt n)

theorem cex_step1_snd :
    (boardStep (fun _ => "") [] cexArts []).2 =
      (List.range 500).map fun n => (cexArt n).id := by
  simp only [boardStep, mergedFull, List.append_nil]
  rw [dedupFirst_eq_self nodup_ids_cexArts, cexArts, List.map_map,
    ← List.map_take, List.take_range]
  norm_num

theorem cex_filter_general (N : Nat) :
    ((List.range (N + 1)).map cexArt).filter
      (fun a => decide (a.id ∉ (List.range N).map fun n => (cexArt n).id)) =
      [cexArt N] := by
  rw [List.range_succ, List.map_append, List.filter_append]
  rw [List.filter_eq_nil_iff.mpr ?keep1, List.nil_append]
  case keep1 =>
    intro a ha
    obtain ⟨n, hn, rfl⟩ := List.mem_map.mp ha
    simp only [decide_eq_true_eq, not_not]
    exact List.mem_map_of_mem (fun n => (cexArt n).id) hn
  have hkeep : ((cexArt N).id ∈
      (List.range N).map fun n => (cexArt n).id) → False := by
    intro hmem
    obtain ⟨m, hm, hid⟩ := List.mem_map.mp hmem
    have := cexArt_id_inj hid
    rw [List.mem_range] at hm
    omega
  simp only [List.map_cons, List.map_nil, List.filter_cons, List.filter_nil]
  rw [if_pos]
  rw [decide_eq_true_eq]
  exact hkeep

theorem cex_second_filter :
    cexArts.filter
      (fun a => decide (a.id ∉ (List.range 500).map fun n => (cexArt n).id)) =
      [cexArt 500] :=
  cex_filter_general 500

/-! ### Claim theorems -/

/-- Claim C1, counterexample: with previously seen ids `["b", "c"]`, the
enumeration `["c", "b"]` is an admissible Python set iteration order of
`set(prior)`, and the merged list the code computes from it differs from
the claimed merge in which the remaining previously seen ids keep their
prior persisted order. -/
theorem merge_order_counterexample :
    SetEnum ["b", "c"] ["c", "b"] ∧
    mergedFull ["a"] ["c", "b"] ≠ dedupFirst (["a"] ++ ["b", "c"]) := by
  decide

/-- Claim C1 (amended): for every board processed with prior state, the
updated seen list is the 500-truncation of `mergedFull`: the merge of the
full currently-extracted identity list with SOME enumeration of the set of
previously seen identities (Python set iteration order, which is
unspecified and need not be the prior persisted order), deduplicated
keeping first occurrences; before truncation the merge contains exactly
the union of the extracted and the previously seen identities, has no
duplicates, and starts with the extracted identities in extraction order
whenever these are distinct. -/
theorem merge_update_characterization (summarize : Article → String)
    (articles : List Article) (prior enum : List String)
    (hse : SetEnum prior enum) :
    (boardStep summarize enum articles prior).2 =
      (mergedFull (articles.map (·.id)) enum).take 500 ∧
    (∀ x, x ∈ mergedFull (articles.map (·.id)) enum ↔
      x ∈ articles.map (·.id) ∨ x ∈ prior) ∧
    (mergedFull (articles.map (·.id)) enum).Nodup ∧
    ((articles.map (·.id)).Nodup →
      ∃ t, mergedFull (articles.map (·.id)) enum =
        articles.map (·.id) ++ t) :=
  ⟨rfl, fun x => mem_mergedFull _ enum hse x, nodup_mergedFull _ _,
    fun h => mergedFull_eq_append enum h⟩

/-- Witness for the amended C1 at a concrete input. -/
theorem merge_update_characterization_witness :
    ("a" ∈ mergedFull ([mkRawArt "a"].map (·.id)) ["c", "b"]) ∧
    (mergedFull ([mkRawArt "a"].map (·.id)) ["c", "b"]).Nodup := by
  have h := merge_update_characterization (fun _ => "") [mkRawArt "a"]
    ["b", "c"] ["c", "b"] (by decide)
  exact ⟨(h.2.1 "a").mpr (Or.inl (by decide)), h.2.2.1⟩

/-- Claim C2, counterexample: with the state file missing (`os.path.exists`
false), the run does not fail: `load_state` silently initializes the empty
state and the run proceeds through every board and succeeds. -/
theorem missing_state_counterexample :
    envW.stateFileExists = false ∧
    ((runMain envW).result).isOk = true ∧
    Event.board "일반공지" ∈ (runMain envW).trace := by
  refine ⟨rfl, by decide, by decide⟩

/-- Claim C2 (amended): a CORRUPT persisted state file (present but
unparsable) is fatal: the run halts immediately with that error, with an
empty event trace — before any board is processed, any state write or any
dispatch; a MISSING state file is not fatal: `load_state` returns the
empty state and the run proceeds. -/
theorem corrupt_state_fatal (env env2 : RunEnv) (e : String)
    (h1 : env.stateFileExists = true) (h2 : env.stateParse = .error e)
    (h3 : env2.stateFileExists = false) :
    runMain env = { trace := [], result := .error e } ∧
    load_state env2.stateFileExists env2.stateParse = .ok [] := by
  constructor
  · simp [runMain, load_state, h1, h2]
  · simp [load_state, h3]

/-- Witness for the amended C2 at concrete environments. -/
theorem corrupt_state_fatal_witness :
    runMain envCorruptW =
      { trace := [], result := .error "json.decoder.JSONDecodeError" } ∧
    load_state envW.stateFileExists envW.stateParse = .ok [] :=
  corrupt_state_fatal envCorruptW envW "json.decoder.JSONDecodeError"
    rfl rfl rfl

/-- Claim C3: for a board with prior state whose extraction yields 60
articles with distinct ids, all genuinely new, exactly the first 50 (the
most recent in extraction order) are reported, with summaries attached and
reversed for display; nevertheless every extracted id enters the updated
seen state, so a second classification over the same extraction reports
zero new posts. -/
theorem sixty_new_scenario (summarize : Article → String)
    (articles : List Article) (prior enum : List String)
    (hnd : (articles.map (·.id)).Nodup)
    (hlen : articles.length = 60)
    (hnew : ∀ a ∈ articles, a.id ∉ prior) :
    (boardStep summarize enum articles prior).1 =
      ((articles.take 50).map
        (fun p => { p with summary := some (summarize p) })).reverse ∧
    (boardStep summarize enum articles prior).1.length = 50 ∧
    (∀ a ∈ articles, a.id ∈ (boardStep summarize enum articles prior).2) ∧
    (∀ (summarize2 : Article → String) (enum2 : List String),
      (boardStep summarize2 enum2 articles
        (boardStep summarize enum articles prior).2).1 = []) := by
  have hfilter : articles.filter (fun a => decide (a.id ∉ prior)) =
      articles :=
    List.filter_eq_self.mpr fun a ha => by
      simpa using hnew a ha
  have hmem : ∀ a ∈ articles, a.id ∈
      (boardStep summarize enum articles prior).2 := by
    intro a ha
    exact mem_take_mergedFull enum hnd
      (by simp [hlen]) (List.mem_map_of_mem _ ha)
  refine ⟨?_, ?_, hmem, fun summarize2 enum2 =>
    boardStep_fst_eq_nil summarize2 enum2 articles _ hmem⟩
  · simp only [boardStep, hfilter]
  · simp only [boardStep, hfilter, List.length_reverse, List.length_map,
      List.length_take, hlen]
    decide

/-- Witness for C3 at a concrete 60-article extraction. -/
theorem sixty_new_scenario_witness :
    (boardStep (fun _ => "") [] witArts60 []).1.length = 50 ∧
    (boardStep (fun _ => "s") [] witArts60
      (boardStep (fun _ => "") [] witArts60 []).2).1 = [] := by
  have h := sixty_new_scenario (fun _ => "") witArts60 [] []
    (by decide) (by decide) (by decide)
  exact ⟨h.2.1, h.2.2.2 (fun _ => "s") []⟩

/-- Claim C7, counterexample: an extracted article list of 501 distinct
ids, classified twice in succession against the same board (prior state
present and admissible set enumerations at each step), reports a further
new post on the second run: the 501st extracted id was evicted by the
500-entry truncation of the merged state, so idempotence fails. -/
theorem classify_twice_counterexample :
    SetEnum [] [] ∧
    SetEnum (boardStep (fun _ => "") [] (extract_articles cexArts) []).2
      (boardStep (fun _ => "") [] (extract_articles cexArts) []).2 ∧
    (boardStep (fun _ => "")
      (boardStep (fun _ => "") [] (extract_articles cexArts) []).2
      (extract_articles cexArts)
      (boardStep (fun _ => "") [] (extract_articles cexArts) []).2).1 ≠
      [] := by
  rw [extract_cexArts]
  refine ⟨List.Perm.refl _, ?_, ?_⟩
  · rw [cex_step1_snd]
    unfold SetEnum
    rw [dedupFirst_eq_self (List.Nodup.map cexArt_id_inj (List.nodup_range 500))]
  · rw [cex_step1_snd]
    simp only [boardStep]
    rw [cex_second_filter]
    simp

/-- Claim C7 (amended): classifying twice in succession over the same
extracted article list yields zero new posts on the second run PROVIDED
the extraction holds at most 500 articles (the persisted-state cap); the
counterexample shows that the unrestricted claim fails at 501 articles. -/
theorem classify_twice_idempotent (raw : List Article)
    (prior enum1 enum2 : List String)
    (summarize1 summarize2 : Article → String)
    (hlen : (extract_articles raw).length ≤ 500) :
    (boardStep summarize2 enum2 (extract_articles raw)
      (boardStep summarize1 enum1 (extract_articles raw) prior).2).1 = [] := by
  refine boardStep_fst_eq_nil _ _ _ _ fun a ha => ?_
  exact mem_take_mergedFull enum1 (nodup_ids_extract raw)
    (by simpa using hlen) (List.mem_map_of_mem _ ha)

/-- Witness for the amended C7 at a concrete extraction. -/
theorem classify_twice_idempotent_witness :
    (boardStep (fun _ => "x") ["9"] (extract_articles rawW)
      (boardStep (fun _ => "") [] (extract_articles rawW) ["3"]).2).1 = [] :=
  classify_twice_idempotent rawW ["3"] [] ["9"] (fun _ => "") (fun _ => "x")
    (by decide)

theorem boards_names_nodup : (BOARDS.map (·.name)).Nodup := by decide

/-- Claim C4: after every successful run, every configured board has a
persisted seen-id entry of at most 500 identities: first-run seeding
stores at most 300, merged updates are truncated to 500. -/
theorem state_cap_invariant (env : RunEnv) (r : RunOutcome) (b : Board)
    (h : (runMain env).result = .ok r) (hb : b ∈ BOARDS) :
    ∃ l, dictGet r.finalState b.name = some l ∧ l.length ≤ 500 := by
  obtain ⟨st0, tr, hld, hpb, -, -⟩ := runMain_ok_inv env r h
  obtain ⟨raw, -, hdisj⟩ := processBoards_board env BOARDS st0 [] [] tr
    r.finalState r.newByBoard b boards_names_nodup hb hpb
  rcases hdisj with ⟨-, -, hst, -⟩ | ⟨-, hst, -⟩
  · refine ⟨_, hst, ?_⟩
    simp only [List.length_take]
    omega
  · refine ⟨_, hst, ?_⟩
    simp only [boardStep, List.length_take]
    omega

/-- Witness for C4 at a concrete run. -/
theorem state_cap_invariant_witness :
    ∃ r, (runMain envW).result = .ok r ∧
      ∃ l, dictGet r.finalState "일반공지" = some l ∧ l.length ≤ 500 := by
  rcases hres : (runMain envW).result with e | r
  · have hok : ((runMain envW).result).isOk = true := by decide
    rw [hres] at hok
    cases hok
  · refine ⟨r, rfl, ?_⟩
    exact state_cap_invariant envW r
      ⟨"일반공지", "https://www.mju.ac.kr/mjukr/255/subview.do?fnctId=bbs&fnctNo=141"⟩
      hres (by decide)

/-- Claim C5: every configured board with no prior SeenState entry, when
backlog sending is disabled, reports zero new posts and is seeded with the
ids of the first 300 extracted articles taken in the defined sort order:
the extraction is a permutation of the deduplicated raw articles sorted
descending by `sort_key` (numeric ids as integers, non-numeric as 0). -/
theorem first_run_seeding (env : RunEnv) (r : RunOutcome) (b : Board)
    (st0 : StateMap)
    (h : (runMain env).result = .ok r) (hb : b ∈ BOARDS)
    (hld : load_state env.stateFileExists env.stateParse = .ok st0)
    (h0 : dictGet st0 b.name = none)
    (hsb : env.sendBacklog = false) :
    ∃ raw, env.listing b.url = .ok raw ∧
      dictGet r.newByBoard b.name = some [] ∧
      dictGet r.finalState b.name =
        some (((extract_articles raw).map (·.id)).take 300) ∧
      (extract_articles raw).Pairwise (fun x y => sort_key y ≤ sort_key x) ∧
      (extract_articles raw).Perm (uniqValues raw) := by
  obtain ⟨st0b, tr, hld2, hpb, -, -⟩ := runMain_ok_inv env r h
  obtain rfl : st0 = st0b := Except.ok.inj (hld.symm.trans hld2)
  obtain ⟨raw, hraw, hdisj⟩ := processBoards_board env BOARDS st0 [] [] tr
    r.finalState r.newByBoard b boards_names_nodup hb hpb
  rcases hdisj with ⟨-, -, hst, hnbb⟩ | ⟨hcon, -, -⟩
  · exact ⟨raw, hraw, hnbb, hst, pairwise_sortArticles _, sortArticles_perm _⟩
  · exact absurd ⟨h0, hsb⟩ hcon

/-- Witness for C5 at a concrete run: the board is seeded with the three
ids in descending numeric order and reports nothing. -/
theorem first_run_seeding_witness :
    ∃ r, (runMain envSeedW).result = .ok r ∧
      dictGet r.newByBoard "학사공지" = some [] ∧
      dictGet r.finalState "학사공지" = some ["9", "5", "3"] := by
  rcases hres : (runMain envSeedW).result with e | r
  · have hok : ((runMain envSeedW).result).isOk = true := by decide
    rw [hres] at hok
    cases hok
  · obtain ⟨raw, hraw, hnbb, hst, -, -⟩ := first_run_seeding envSeedW r
      ⟨"학사공지", "https://www.mju.ac.kr/mjukr/257/subview.do?fnctId=bbs&fnctNo=143"⟩
      [] hres (by decide) rfl rfl rfl
    obtain rfl : rawW = raw := Except.ok.inj hraw
    refine ⟨r, rfl, hnbb, ?_⟩
    rw [hst]
    decide

/-- Claim C6: a configured board with no prior state, when backlog sending
is explicitly enabled, is classified against an empty seen set: every
currently extracted article is new, and the report is the first 50 of them
in extraction order, with summaries attached, reversed for display. -/
theorem backlog_enabled_all_new (env : RunEnv) (r : RunOutcome) (b : Board)
    (st0 : StateMap)
    (h : (runMain env).result = .ok r) (hb : b ∈ BOARDS)
    (hld : load_state env.stateFileExists env.stateParse = .ok st0)
    (h0 : dictGet st0 b.name = none)
    (hsb : env.sendBacklog = true) :
    ∃ raw, env.listing b.url = .ok raw ∧
      dictGet r.newByBoard b.name =
        some ((((extract_articles raw).take 50).map
          (fun p => { p with summary := some (postSummary env p) })).reverse) := by
  obtain ⟨st0b, tr, hld2, hpb, -, -⟩ := runMain_ok_inv env r h
  obtain rfl : st0 = st0b := Except.ok.inj (hld.symm.trans hld2)
  obtain ⟨raw, hraw, hdisj⟩ := processBoards_board env BOARDS st0 [] [] tr
    r.finalState r.newByBoard b boards_names_nodup hb hpb
  rcases hdisj with ⟨-, hsb2, -, -⟩ | ⟨-, -, hnbb⟩
  · rw [hsb] at hsb2
    cases hsb2
  · refine ⟨raw, hraw, ?_⟩
    rw [hnbb, h0]
    have hfilter : (extract_articles raw).filter
        (fun a => decide (a.id ∉ ([] : List String))) = extract_articles raw :=
      List.filter_eq_self.mpr fun a _ => by simp
    simp only [boardStep, Option.getD_none, hfilter]

/-- Witness for C6 at a concrete run with backlog sending enabled. -/
theorem backlog_enabled_all_new_witness :
    ∃ r, (runMain envBacklogW).result = .ok r ∧
      dictGet r.newByBoard "일반공지" =
        some ((((extract_articles rawW).take 50).map
          (fun p =>
            { p with summary := some (postSummary envBacklogW p) })).reverse) := by
  rcases hres : (runMain envBacklogW).result with e | r
  · have hok : ((runMain envBacklogW).result).isOk = true := by decide
    rw [hres] at hok
    cases hok
  · obtain ⟨raw, hraw, hnbb⟩ := backlog_enabled_all_new envBacklogW r
      ⟨"일반공지", "https://www.mju.ac.kr/mjukr/255/subview.do?fnctId=bbs&fnctNo=141"⟩
      [] hres (by decide) rfl rfl rfl
    obtain rfl : rawW = raw := Except.ok.inj hraw
    exact ⟨r, rfl, hnbb⟩

/-- Claim C8: on every successful run the event trace consists of one
`board` event per processed board, then exactly one state save, then —
iff the total number of new posts is positive — the single dispatch and
its summary line, otherwise only the "No new posts" line.  So dispatch
occurs iff new posts exist, the state file is always rewritten, exactly
once, after all boards and before any dispatch attempt. -/
theorem dispatch_iff_new_posts (env : RunEnv) (r : RunOutcome)
    (h : (runMain env).result = .ok r) :
    ∃ tr0, (∀ ev ∈ tr0, ∃ nm, ev = Event.board nm) ∧
      (runMain env).trace = tr0 ++ Event.savedState r.finalState ::
        (if 0 < totalNew r.newByBoard then
          [Event.sentEmail r.newByBoard,
           Event.printed ("Sent email: " ++ toString (totalNew r.newByBoard)
             ++ " new posts")]
         else [Event.printed "No new posts"]) ∧
      ((∃ nbb, Event.sentEmail nbb ∈ (runMain env).trace) ↔
        0 < totalNew r.newByBoard) ∧
      ((runMain env).trace.countP Event.isSaved) = 1 ∧
      r.message = (if 0 < totalNew r.newByBoard then
          "Sent email: " ++ toString (totalNew r.newByBoard) ++ " new posts"
        else "No new posts") := by
  obtain ⟨st0, tr, hld, hpb, htr, hmsg⟩ := runMain_ok_inv env r h
  obtain ⟨add, hadd, hboard⟩ := processBoards_trace env BOARDS st0 [] []
  rw [hpb] at hadd
  simp only [List.nil_append] at hadd
  subst hadd
  have hcount0 : tr.countP Event.isSaved = 0 :=
    List.countP_eq_zero.mpr fun ev hev => by
      obtain ⟨nm, rfl⟩ := hboard ev hev
      simp [Event.isSaved]
  refine ⟨tr, hboard, htr, ?_, ?_, hmsg⟩
  · constructor
    · rintro ⟨nbb, hmem⟩
      by_contra htot
      rw [htr, if_neg htot] at hmem
      rcases List.mem_append.mp hmem with hmem | hmem
      · obtain ⟨nm, heq⟩ := hboard _ hmem
        cases heq
      · rcases List.mem_cons.mp hmem with heq | hmem
        · cases heq
        · rcases List.mem_cons.mp hmem with heq | hmem
          · cases heq
          · cases hmem
    · intro htot
      refine ⟨r.newByBoard, ?_⟩
      rw [htr, if_pos htot]
      simp
  · rw [htr]
    by_cases htot : 0 < totalNew r.newByBoard
    · rw [if_pos htot]
      simp [List.countP_append, List.countP_cons, Event.isSaved, hcount0]
    · rw [if_neg htot]
      simp [List.countP_append, List.countP_cons, Event.isSaved, hcount0]

/-- Witness for C8 at a concrete run with zero new posts: the state is
saved exactly once and no dispatch happens. -/
theorem dispatch_iff_new_posts_witness :
    ((runMain envW).trace.countP Event.isSaved) = 1 ∧
    ¬ (∃ nbb, Event.sentEmail nbb ∈ (runMain envW).trace) := by
  have hres : (runMain envW).result = .ok outW := rfl
  obtain ⟨tr0, -, -, hiff, hcount, -⟩ := dispatch_iff_new_posts envW outW hres
  refine ⟨hcount, fun hex => ?_⟩
  have htot := hiff.mp hex
  have hz : totalNew outW.newByBoard = 0 := by decide
  omega

/-- Claim C9: a failing detail fetch for one post is caught locally: the
post's summary degrades to the empty string; reported new posts are
exactly the capped new subset with summaries attached (so the degraded
post is still reported); and whether the whole run succeeds or fails does
not depend on the detail-fetch oracle at all — the only tolerated partial
failure. -/
theorem per_post_failure_tolerated (env : RunEnv) (enum : List String)
    (articles : List Article) (prior : List String) (p : Article)
    (e : String) (hf : env.fetchPost p.url = .error e) :
    postSummary env p = "" ∧
    (boardStep (postSummary env) enum articles prior).1 =
      (((articles.filter (fun a => decide (a.id ∉ prior))).take 50).map
        (fun q => { q with summary := some (postSummary env q) })).reverse ∧
    (∀ f, ((runMain { env with fetchPost := f }).result).isOk =
      ((runMain env).result).isOk) := by
  refine ⟨?_, rfl, fun f => runMain_isOk_indep_fetch env f⟩
  simp [postSummary, hf]

/-- Witness for C9 at a concrete environment whose detail fetches fail. -/
theorem per_post_failure_tolerated_witness :
    postSummary envW (mkRawArt "7") = "" ∧
    ((runMain { envW with fetchPost := fun _ => .ok "body" }).result).isOk =
      ((runMain envW).result).isOk := by
  have h := per_post_failure_tolerated envW [] [] [] (mkRawArt "7")
    "requests.exceptions.ConnectionError" rfl
  exact ⟨h.1, h.2.2 (fun _ => .ok "body")⟩

/-- Claim C10: `summarize_text` at `max_chars = 180`: falsy (empty) input
yields the empty string; when the stripped text has at most 180 characters
it is returned unchanged; otherwise the result is a right-stripped prefix
of the stripped text of length at most 180 followed by a single ellipsis
character — so the result length never exceeds 181. -/
theorem summarize_text_spec (text : String) :
    (text = "" → summarize_text text 180 = "") ∧
    ((pyStrip text.data).length ≤ 180 →
      summarize_text text 180 = String.mk (pyStrip text.data)) ∧
    (180 < (pyStrip text.data).length →
      ∃ pre t2, pyStrip text.data = pre ++ t2 ∧ pre.length ≤ 180 ∧
        summarize_text text 180 = String.mk (pyRstrip pre ++ ['…'])) ∧
    (summarize_text text 180).length ≤ 181 := by
  by_cases htext : text = ""
  · subst htext
    refine ⟨fun _ => rfl, fun _ => by decide, fun hgt => ?_, by decide⟩
    exfalso
    revert hgt
    decide
  · by_cases hlen : (pyStrip text.data).length ≤ 180
    · refine ⟨fun h => absurd h htext, fun _ => ?_,
        fun hgt => absurd hlen (not_le.mpr hgt), ?_⟩
      · simp only [summarize_text, if_neg htext, if_pos hlen]
      · simp only [summarize_text, if_neg htext, if_pos hlen]
        show (pyStrip text.data).length ≤ 181
        omega
    · have hcut : chooseCut (pyStrip text.data) 180 cutPats ≤ 180 :=
        chooseCut_le _ _ _
      refine ⟨fun h => absurd h htext, fun h => absurd h hlen, fun _ => ?_, ?_⟩
      · refine ⟨(pyStrip text.data).take
            (chooseCut (pyStrip text.data) 180 cutPats),
          (pyStrip text.data).drop
            (chooseCut (pyStrip text.data) 180 cutPats),
          (List.take_append_drop _ _).symm, ?_, ?_⟩
        · simp only [List.length_take]
          omega
        · simp only [summarize_text, if_neg htext, if_neg hlen]
      · simp only [summarize_text, if_neg htext, if_neg hlen]
        show (pyRstrip ((pyStrip text.data).take
          (chooseCut (pyStrip text.data) 180 cutPats)) ++ ['…']).length ≤ 181
        rw [List.length_append]
        have h1 := length_pyRstrip_le ((pyStrip text.data).take
          (chooseCut (pyStrip text.data) 180 cutPats))
        have h2 : ((pyStrip text.data).take
            (chooseCut (pyStrip text.data) 180 cutPats)).length ≤ 180 := by
          simp only [List.length_take]
          omega
        simp only [List.length_cons, List.length_nil]
        omega

/-- Witness for C10 at a 181-character input that must be truncated. -/
theorem summarize_text_spec_witness :
    (summarize_text (String.mk (List.replicate 181 'a')) 180).length ≤ 181 ∧
    (∃ pre t2, pyStrip (String.mk (List.replicate 181 'a')).data =
        pre ++ t2 ∧ pre.length ≤ 180 ∧
      summarize_text (String.mk (List.replicate 181 'a')) 180 =
        String.mk (pyRstrip pre ++ ['…'])) := by
  refine ⟨(summarize_text_spec (String.mk (List.replicate 181 'a'))).2.2.2,
    (summarize_text_spec (String.mk (List.replicate 181 'a'))).2.2.1 ?_⟩
  decide
